import Mathlib

/-!
Verification of the checklist/parser core of `brew-update-helper`.

Rust strings are embedded as `List Char` (UTF-8 byte-index slicing in the
source always happens at ASCII delimiters, so character-index slicing is
an exact model, and Rust's byte-wise `String` ordering coincides with
codepoint ordering on UTF-8).  `HashMap<String, bool>` is embedded as an
association list whose `insert` removes the old binding, so lookups and
key-sets observably match the hash map.  Impure inputs (file contents, the
formatted timestamp) become explicit arguments.
-/

/-- Unicode `White_Space` property, as
used by Rust's `char::is_whitespace` (which `str::trim` is built from). -/
def rustIsWhitespace (c : Char) : Bool :=
  c = ' ' || c = '\t' || c = '\n' || c = '\x0B' || c = '\x0C' || c = '\r' ||
  c = '\u0085' || c = '\u00A0' || c = '\u1680' ||
  (0x2000 ≤ c.val && c.val ≤ 0x200A) ||
  c = '\u2028' || c = '\u2029' || c = '\u202F' || c = '\u205F' || c = '\u3000'

/-- Shorthand to move a Lean string literal into the `List Char` model. -/
def str (s : String) : List Char := s.data

/-- Boolean "is a prefix of" on character lists (Rust `str::starts_with`). -/
def isPfxOf : List Char → List Char → Bool
  | [], _ => true
  | _ :: _, [] => false
  | a :: as, b :: bs => if a = b then isPfxOf as bs else false

/-- Rust `str::strip_prefix`: `some` of the remainder when the prefix matches. -/
def stripPfx (p s : List Char) : Option (List Char) :=
  if isPfxOf p s then some (s.drop p.length) else none

/-- Rust `str::find` for a literal pattern: index of the first occurrence. -/
def findSub (pat : List Char) : List Char → Option Nat
  | [] => if isPfxOf pat [] then some 0 else none
  | c :: t => if isPfxOf pat (c :: t) then some 0 else (findSub pat t).map (· + 1)

/-- Rust `str::trim`: strip `White_Space` characters from both ends. -/
def trim (s : List Char) : List Char :=
  List.rdropWhile rustIsWhitespace (s.dropWhile rustIsWhitespace)

/-- Split on `'\n'`, keeping every segment (including a trailing empty one). -/
def splitNl : List Char → List (List Char)
  | [] => [[]]
  | c :: t =>
    if c = '\n' then [] :: splitNl t
    else
      match splitNl t with
      | [] => [[c]]
      | s :: rest => (c :: s) :: rest

/-- Drop one trailing `'\r'`, as Rust `str::lines` does on each line. -/
def stripCarriage (l : List Char) : List Char :=
  if l.getLast? = some '\r' then l.dropLast else l

/-- Rust `str::lines`: split on `'\n'`, drop a final empty segment, strip `'\r'`. -/
def rustLines (content : List Char) : List (List Char) :=
  (if (splitNl content).getLast? = some [] then (splitNl content).dropLast
   else splitNl content).map stripCarriage

/-- Text consisting of the given lines, each terminated by `'\n'`. -/
def unlines (ls : List (List Char)) : List Char :=
  (ls.map (fun l => l ++ ['\n'])).flatten

/-- Association-list model of `HashMap<String, bool>`. -/
abbrev HMap : Type := List (List Char × Bool)

/-- Remove every binding of a key. -/
def hmErase (k : List Char) : List (List Char × Bool) → List (List Char × Bool)
  | [] => []
  | (k', v) :: t => if k' = k then hmErase k t else (k', v) :: hmErase k t

/-- `HashMap::insert`: the new binding replaces any old one. -/
def hmInsert (k : List Char) (v : Bool) (m : HMap) : HMap :=
  (k, v) :: hmErase k m

/-- `HashMap::get` (by key equality). -/
def hmGet (m : HMap) (k : List Char) : Option Bool :=
  match m with
  | [] => none
  | (k', v) :: t => if k' = k then some v else hmGet t k

/-- `map.get(k).copied().unwrap_or(d)`. -/
def hmGetD (m : HMap) (k : List Char) (d : Bool) : Bool :=
  (hmGet m k).getD d

/-- `HashMap::is_empty`. -/
def hmIsEmpty (m : HMap) : Bool :=
  match m with
  | [] => true
  | _ :: _ => false

/-- The keys of the map model. -/
def hmKeys (m : HMap) : List (List Char) :=
  m.map (fun p => p.1)

/-- `PackageType` from `src/brew.rs`. -/
inductive PackageType where
  | Formula : PackageType
  | Cask : PackageType
deriving DecidableEq, Repr

/-- `OutdatedPackage` from `src/brew.rs`. -/
structure OutdatedPackage where
  name : List Char
  current_version : List Char
  available_version : List Char
  package_type : PackageType
deriving DecidableEq, Repr

/-- `parse_outdated_line` from `src/brew.rs` (lines 221-246), translated
clause by clause: find `" ("`, slice the name before it and trim; find
`") "` in the rest, slice the version between; trim the remainder, find a
space, everything after it (trimmed) is the available version. -/
def parse_outdated_line (line : List Char) (package_type : PackageType) :
    Option OutdatedPackage :=
  match findSub (str " (") line with
  | none => none
  | some pos =>
    let name := trim (line.take pos)
    let rest := line.drop (pos + 2)
    match findSub (str ") ") rest with
    | none => none
    | some end_paren =>
      let current_version := rest.take end_paren
      let remainder := trim (rest.drop (end_paren + 2))
      match findSub [' '] remainder with
      | none => none
      | some space_pos =>
        some { name := name,
               current_version := current_version,
               available_version := trim (remainder.drop (space_pos + 1)),
               package_type := package_type }

/-- One iteration of the line loop of `read_existing_settings`
(`src/config.rs` lines 34-45): trim the line, and on a checkbox line
insert the trimmed name with its flag (the prefix test uses the
5-character token, the strip uses the 6-character "token plus space"). -/
def settingsStep (m : HMap) (raw : List Char) : HMap :=
  let line := trim raw
  if isPfxOf (str "- [x]") line then
    match stripPfx (str "- [x] ") line with
    | some package => hmInsert (trim package) true m
    | none => m
  else if isPfxOf (str "- [ ]") line then
    match stripPfx (str "- [ ] ") line with
    | some package => hmInsert (trim package) false m
    | none => m
  else m

/-- `read_existing_settings` from `src/config.rs` (lines 25-48), on the
already-read file contents (the spec's `parse_checklist`).  The absent-file
case is handled in the command model. -/
def read_existing_settings (content : List Char) : HMap :=
  (rustLines content).foldl settingsStep []

/-- `extract_package_name` from `src/config.rs` (lines 82-90). -/
def extract_package_name (line : List Char) : Option (List Char) :=
  if isPfxOf (str "- [x] ") line then (stripPfx (str "- [x] ") line).map trim
  else if isPfxOf (str "- [ ] ") line then (stripPfx (str "- [ ] ") line).map trim
  else none

/-- The `current_section` cursor of `read_previous_packages`
(the Rust code uses the strings `""`, `"formulae"`, `"casks"`). -/
inductive Cursor where
  | blank : Cursor
  | formulae : Cursor
  | casks : Cursor
deriving DecidableEq, Repr

/-- Loop state of `read_previous_packages`. -/
structure PrevState where
  formulae : List (List Char)
  casks : List (List Char)
  cursor : Cursor
deriving DecidableEq, Repr

/-- One iteration of the line loop of `read_previous_packages`
(`src/config.rs` lines 61-77): `"## Formulae"` and `"## Casks"` switch the
cursor, a line starting with `"- ["` is routed to the current section's
list, and every other line falls through with the state unchanged. -/
def prevStep (st : PrevState) (raw : List Char) : PrevState :=
  let line := trim raw
  if line = str "## Formulae" then { st with cursor := Cursor.formulae }
  else if line = str "## Casks" then { st with cursor := Cursor.casks }
  else if isPfxOf (str "- [") line then
    match extract_package_name line with
    | some package =>
      match st.cursor with
      | Cursor.formulae => { st with formulae := st.formulae ++ [package] }
      | Cursor.casks => { st with casks := st.casks ++ [package] }
      | Cursor.blank => st
    | none => st
  else st

/-- The line loop of `read_previous_packages` over a list of lines. -/
def read_previous_lines (ls : List (List Char)) :
    List (List Char) × List (List Char) :=
  let st := ls.foldl prevStep ⟨[], [], Cursor.blank⟩
  (st.formulae, st.casks)

/-- `read_previous_packages` from `src/config.rs` (lines 50-80), on the
already-read file contents (the spec's `read_previous_inventory`). -/
def read_previous_packages (content : List Char) :
    List (List Char) × List (List Char) :=
  read_previous_lines (rustLines content)

/-- Rust `String` ordering (byte-wise lexicographic, which on UTF-8 equals
codepoint-wise lexicographic), as a Boolean `≤` for `Vec::sort`. -/
def nameLe : List Char → List Char → Bool
  | [], _ => true
  | _ :: _, [] => false
  | a :: as, b :: bs =>
    if a.toNat < b.toNat then true
    else if a.toNat = b.toNat then nameLe as bs
    else false

/-- `sorted_formulae.sort()` / `sorted_casks.sort()` from
`generate_settings_content`: the ascending sort of a name list.  The order
is total and antisymmetric (equal names are identical strings), so every
correct sort — in particular Rust's stable merge sort — produces this same
list. -/
def sortNames (l : List (List Char)) : List (List Char) :=
  List.insertionSort (fun a b => nameLe a b = true) l

/-- One rendered checkbox line of `generate_settings_content`
(`src/config.rs` lines 116-118): `format!("- {} {}\n", checkbox, name)`
with the checkbox chosen by `existing_settings.get(name).copied().unwrap_or(true)`. -/
def entryLine (existing_settings : HMap) (name : List Char) : List Char :=
  str "- " ++ (if hmGetD existing_settings name true then str "[x]" else str "[ ]")
    ++ str " " ++ name ++ ['\n']

/-- `generate_settings_content` from `src/config.rs` (lines 92-132), with
the wall-clock timestamp and the pre-formatted statistics block passed in
explicitly (`stats.format_as_markdown()` is modelled as the text it
contributes; `None` contributes nothing). -/
def generate_settings_content (formulae casks : List (List Char))
    (existing_settings : HMap) (stats : Option (List Char)) (now : List Char) :
    List Char :=
  str "# Brew Auto-Update Settings\n\n"
    ++ str "Generated on: " ++ now ++ str "\n\n"
    ++ (match stats with | some s => s | none => [])
    ++ str "## Formulae\n\n"
    ++ ((sortNames formulae).map (entryLine existing_settings)).flatten
    ++ str "\n## Casks\n\n"
    ++ ((sortNames casks).map (entryLine existing_settings)).flatten

/-- `PackageChanges` from `src/stats.rs`. -/
structure PackageChanges where
  added_formulae : Nat
  removed_formulae : Nat
  added_casks : Nat
  removed_casks : Nat
deriving DecidableEq, Repr

/-- `calculate_package_changes` from `src/stats.rs` (lines 276-312):
counts over the raw lists (`Vec::contains` membership), zero when the
corresponding previous list is `None`. -/
def calculate_package_changes (current_formulae current_casks : List (List Char))
    (previous_formulae previous_casks : Option (List (List Char))) :
    PackageChanges :=
  { added_formulae :=
      match previous_formulae with
      | some prev => (current_formulae.filter (fun pkg => decide (pkg ∉ prev))).length
      | none => 0
    removed_formulae :=
      match previous_formulae with
      | some prev => (prev.filter (fun pkg => decide (pkg ∉ current_formulae))).length
      | none => 0
    added_casks :=
      match previous_casks with
      | some prev => (current_casks.filter (fun pkg => decide (pkg ∉ prev))).length
      | none => 0
    removed_casks :=
      match previous_casks with
      | some prev => (prev.filter (fun pkg => decide (pkg ∉ current_casks))).length
      | none => 0 }

/-- The `enabled_packages` collection of `upgrade_command`
(`src/commands.rs` lines 65-69): the keys mapped to `true`. -/
def enabled_packages (settings : HMap) : List (List Char) :=
  (settings.filter (fun p => p.2)).map (fun p => p.1)

/-- The filter of `upgrade_command` (`src/commands.rs` lines 82-85):
keep the outdated records whose name occurs among the enabled names. -/
def upgradeable_packages (settings : HMap) (outdated : List OutdatedPackage) :
    List OutdatedPackage :=
  outdated.filter (fun pkg => decide (pkg.name ∈ enabled_packages settings))

/-- The observable outcome of one `upgrade_command` invocation. -/
inductive UpgradeOutcome where
  | errNoFile : UpgradeOutcome
  | errNoPackages : UpgradeOutcome
  | okNoneEnabled : UpgradeOutcome
  | okAllUpToDate : UpgradeOutcome
  | proceed : List OutdatedPackage → UpgradeOutcome
deriving DecidableEq, Repr

/-- Control flow of `upgrade_command` (`src/commands.rs` lines 48-110) up
to the hand-off to the picker: the two `bail!` branches are errors, the
early `return Ok(())` branches are non-error stops, and otherwise the
filtered records are handed to the picker. -/
def upgrade_command_model (fileExists : Bool) (content : List Char)
    (outdated : List OutdatedPackage) : UpgradeOutcome :=
  if !fileExists then UpgradeOutcome.errNoFile
  else
    let settings := read_existing_settings content
    if hmIsEmpty settings then UpgradeOutcome.errNoPackages
    else if (enabled_packages settings).isEmpty then UpgradeOutcome.okNoneEnabled
    else
      let upg := upgradeable_packages settings outdated
      if upg.isEmpty then UpgradeOutcome.okAllUpToDate
      else UpgradeOutcome.proceed upg

/-- Spec-side reading of one checklist line, written from the claim's
wording: a trimmed line starting with `"- [x] "` yields the trimmed name
with `true`, one starting with `"- [ ] "` yields it with `false`, and any
other line yields nothing. -/
def lineEntrySpec (raw : List Char) : Option (List Char × Bool) :=
  if isPfxOf (str "- [x] ") (trim raw) then some (trim ((trim raw).drop 6), true)
  else if isPfxOf (str "- [ ] ") (trim raw) then some (trim ((trim raw).drop 6), false)
  else none

/-- Spec-side "later line wins" lookup over a list of lines: the flag of
the last checkbox line carrying the given name, if any. -/
def lastFlag (ls : List (List Char)) (name : List Char) : Option Bool :=
  (ls.filterMap lineEntrySpec).foldl
    (fun acc kv => if kv.1 = name then some kv.2 else acc) none

/-- A rendered checkbox line without its trailing newline. -/
def entryCore (existing_settings : HMap) (name : List Char) : List Char :=
  str "- " ++ (if hmGetD existing_settings name true then str "[x]" else str "[ ]")
    ++ str " " ++ name

/-- Spec-side rendering of one checklist entry, written from the claim's
wording for C6: checked when the map sends the name to `true` or has no
entry for it, unchecked when it sends it to `false`. -/
def specLine (E : HMap) (name : List Char) : List Char :=
  (match hmGet E name with
   | some false => str "- [ ] "
   | _ => str "- [x] ") ++ name ++ ['\n']

/-- Spec-side failure condition of the outdated-line parser, written from
the claim's wording for C4: no `" ("`, or no `") "` after the first
`" ("`, or no space in the trimmed remainder after `") "`. -/
def malformedOutdated (line : List Char) : Bool :=
  match findSub (str " (") line with
  | none => true
  | some pos =>
    match findSub (str ") ") (line.drop (pos + 2)) with
    | none => true
    | some end_paren =>
      (findSub [' '] (trim ((line.drop (pos + 2)).drop (end_paren + 2)))).isNone

/-- Spec-side set-difference count, written from the claim's wording for
C8: the cardinality of the set of names occurring in `cur` but not in
`prev`. -/
def setDiffCard (cur prev : List (List Char)) : Nat :=
  (cur.dedup.filter (fun x => decide (x ∉ prev))).length


theorem isPfxOf_append_self (p t : List Char) : isPfxOf p (p ++ t) = true := by
  induction p with
  | nil => rfl
  | cons a as ih => simpa [isPfxOf] using ih

theorem isPfxOf_iff_exists (p s : List Char) :
    isPfxOf p s = true ↔ ∃ t, s = p ++ t := by
  induction p generalizing s with
  | nil => simp [isPfxOf]
  | cons a as ih =>
    cases s with
    | nil => simp [isPfxOf]
    | cons b bs =>
      by_cases hab : a = b
      · subst hab
        simp [isPfxOf, ih]
      · constructor
        · intro h
          simp [isPfxOf, hab] at h
        · rintro ⟨t, ht⟩
          injection ht with h1 h2
          exact absurd h1.symm hab

theorem isPfxOf_of_append (p q s : List Char) (h : isPfxOf (p ++ q) s = true) :
    isPfxOf p s = true := by
  rcases (isPfxOf_iff_exists _ _).mp h with ⟨t, ht⟩
  exact (isPfxOf_iff_exists _ _).mpr ⟨q ++ t, by simp [ht]⟩

theorem stripPfx_append (p t : List Char) : stripPfx p (p ++ t) = some t := by
  simp [stripPfx, isPfxOf_append_self, List.drop_left]

theorem stripPfx_of_not (p s : List Char) (h : isPfxOf p s = false) :
    stripPfx p s = none := by
  simp [stripPfx, h]

theorem findSub_of_isPfxOf (pat s : List Char) (h : isPfxOf pat s = true) :
    findSub pat s = some 0 := by
  cases s <;> simp [findSub, h]

theorem findSub_cons_of_neg (pat : List Char) (c : Char) (t : List Char)
    (h : isPfxOf pat (c :: t) = false) :
    findSub pat (c :: t) = (findSub pat t).map (· + 1) := by
  simp [findSub, h]

theorem findSub_pair {c0 c1 : Char} (hne : c0 ≠ c1) (a b : List Char)
    (ha : findSub [c0, c1] a = none) :
    findSub [c0, c1] (a ++ [c0, c1] ++ b) = some a.length := by
  induction a with
  | nil =>
    simpa using findSub_of_isPfxOf [c0, c1] ([c0, c1] ++ b) (isPfxOf_append_self _ _)
  | cons x t ih =>
    have hstep : (if isPfxOf [c0, c1] (x :: t) = true then some 0
        else (findSub [c0, c1] t).map (· + 1)) = none := by
      simpa [findSub] using ha
    have hxt : isPfxOf [c0, c1] (x :: t) = false := by
      by_contra hcon
      rw [Bool.not_eq_false] at hcon
      rw [if_pos hcon] at hstep
      cases hstep
    have hts : findSub [c0, c1] t = none := by
      rw [if_neg (by simp [hxt])] at hstep
      exact Option.map_eq_none'.mp hstep
    have hnp : isPfxOf [c0, c1] (x :: (t ++ [c0, c1] ++ b)) = false := by
      by_contra hcon
      rw [Bool.not_eq_false] at hcon
      rcases (isPfxOf_iff_exists _ _).mp hcon with ⟨u, hu⟩
      injection hu with h1 h2
      cases t with
      | nil =>
        simp at h2
        exact hne (by simpa using h2.1)
      | cons y t' =>
        injection h2 with h3 h4
        have : isPfxOf [c0, c1] (x :: y :: t') = true := by
          simp [isPfxOf, h1, h3]
        rw [this] at hxt
        cases hxt
    calc findSub [c0, c1] ((x :: t) ++ [c0, c1] ++ b)
        = findSub [c0, c1] (x :: (t ++ [c0, c1] ++ b)) := by simp
      _ = (findSub [c0, c1] (t ++ [c0, c1] ++ b)).map (· + 1) :=
          findSub_cons_of_neg _ _ _ hnp
      _ = some (t.length + 1) := by rw [ih hts]; rfl
      _ = some (x :: t).length := by simp

theorem findSub_single (c : Char) (a b : List Char) (ha : c ∉ a) :
    findSub [c] (a ++ c :: b) = some a.length := by
  induction a with
  | nil =>
    simpa using findSub_of_isPfxOf [c] (c :: b) (by simp [isPfxOf])
  | cons x t ih =>
    have hx : c ≠ x := fun h => ha (h ▸ List.mem_cons_self x t)
    have hnp : isPfxOf [c] (x :: (t ++ c :: b)) = false := by
      simp [isPfxOf, hx]
    calc findSub [c] ((x :: t) ++ c :: b)
        = findSub [c] (x :: (t ++ c :: b)) := by simp
      _ = (findSub [c] (t ++ c :: b)).map (· + 1) := findSub_cons_of_neg _ _ _ hnp
      _ = some (t.length + 1) := by
          rw [ih (fun hm => ha (List.mem_cons_of_mem x hm))]; rfl
      _ = some (x :: t).length := by simp

theorem dropWhile_eq_self_of_head (p : Char → Bool) (s : List Char)
    (h : ∀ c, s.head? = some c → p c = false) : s.dropWhile p = s := by
  cases s with
  | nil => rfl
  | cons x t =>
    have hx : ¬ p x = true := by simp [h x rfl]
    simp [List.dropWhile_cons_of_neg hx]

theorem rdropWhile_eq_self_of_last (p : Char → Bool) (s : List Char)
    (h : ∀ c, s.getLast? = some c → p c = false) : List.rdropWhile p s = s := by
  rw [List.rdropWhile_eq_self_iff]
  intro hl
  have := h (s.getLast hl) (List.getLast?_eq_getLast s hl)
  simp [this]

theorem trim_eq_self (s : List Char)
    (hh : ∀ c, s.head? = some c → rustIsWhitespace c = false)
    (hl : ∀ c, s.getLast? = some c → rustIsWhitespace c = false) : trim s = s := by
  unfold trim
  rw [dropWhile_eq_self_of_head _ _ hh, rdropWhile_eq_self_of_last _ _ hl]

theorem dropWhile_self_head (p : Char → Bool) (s : List Char)
    (h : s.dropWhile p = s) : ∀ c, s.head? = some c → p c = false := by
  intro c hc
  cases s with
  | nil => cases hc
  | cons x t =>
    simp only [List.head?_cons, Option.some.injEq] at hc
    subst hc
    by_contra hp
    rw [Bool.not_eq_false] at hp
    rw [List.dropWhile_cons_of_pos hp] at h
    have hlen := congrArg List.length h
    have hle := List.Sublist.length_le
      (List.IsSuffix.sublist (List.dropWhile_suffix (l := t) p))
    simp at hlen
    omega

theorem rdropWhile_self_last (p : Char → Bool) (s : List Char)
    (h : List.rdropWhile p s = s) : ∀ c, s.getLast? = some c → p c = false := by
  intro c hc
  have hrev : s.reverse.dropWhile p = s.reverse := by
    have := congrArg List.reverse h
    simpa [List.rdropWhile] using this
  exact dropWhile_self_head p s.reverse hrev c (by simpa [List.head?_reverse] using hc)

theorem trim_parts (s : List Char) (h : trim s = s) :
    s.dropWhile rustIsWhitespace = s ∧ List.rdropWhile rustIsWhitespace s = s := by
  unfold trim at h
  have h1 : (s.dropWhile rustIsWhitespace).length ≤ s.length :=
    List.Sublist.length_le (List.IsSuffix.sublist (List.dropWhile_suffix _))
  have h2 : (List.rdropWhile rustIsWhitespace (s.dropWhile rustIsWhitespace)).length ≤
      (s.dropWhile rustIsWhitespace).length :=
    List.IsPrefix.length_le (List.rdropWhile_prefix _ _)
  have hlen := congrArg List.length h
  have hdw : s.dropWhile rustIsWhitespace = s := by
    apply List.Sublist.eq_of_length
      (List.IsSuffix.sublist (List.dropWhile_suffix _))
    omega
  refine ⟨hdw, ?_⟩
  rw [hdw] at h
  exact h

theorem trim_head_false (s : List Char) (h : trim s = s) :
    ∀ c, s.head? = some c → rustIsWhitespace c = false :=
  dropWhile_self_head _ _ (trim_parts s h).1

theorem trim_last_false (s : List Char) (h : trim s = s) :
    ∀ c, s.getLast? = some c → rustIsWhitespace c = false :=
  rdropWhile_self_last _ _ (trim_parts s h).2

theorem rdropWhile_getLast_false (p : Char → Bool) (l : List Char) (c : Char)
    (h : (List.rdropWhile p l).getLast? = some c) : p c = false := by
  have hne : List.rdropWhile p l ≠ [] := by
    intro hnil
    rw [hnil] at h
    cases h
  have hnot := List.rdropWhile_last_not p l hne
  rw [List.getLast?_eq_getLast _ hne] at h
  injection h with h1
  subst h1
  simpa using hnot

theorem trim_getLast_false (s : List Char) (c : Char)
    (h : (trim s).getLast? = some c) : rustIsWhitespace c = false :=
  rdropWhile_getLast_false _ _ _ h

theorem trim_nil_all_ws (s : List Char) (h : trim s = []) :
    ∀ c ∈ s, rustIsWhitespace c = true := by
  intro c hc
  unfold trim at h
  have h2 := List.rdropWhile_eq_nil_iff.mp h
  rcases (List.mem_append.mp
      (by rw [List.takeWhile_append_dropWhile]; exact hc :
        c ∈ s.takeWhile rustIsWhitespace ++ s.dropWhile rustIsWhitespace)) with hm | hm
  · exact List.mem_takeWhile_imp hm
  · exact h2 c hm

theorem splitNl_ne_nil (s : List Char) : splitNl s ≠ [] := by
  cases s with
  | nil => simp [splitNl]
  | cons c t =>
    by_cases hc : c = '\n'
    · simp [splitNl, hc]
    · simp only [splitNl, if_neg hc]
      cases splitNl t <;> simp

theorem splitNl_no_nl (a : List Char) (h : ('\n' : Char) ∉ a) : splitNl a = [a] := by
  induction a with
  | nil => rfl
  | cons c t ih =>
    have hc : c ≠ '\n' := fun hcc => h (hcc ▸ List.mem_cons_self c t)
    have ht := ih (fun hm => h (List.mem_cons_of_mem c hm))
    simp [splitNl, hc, ht]

theorem splitNl_append (a b : List Char) (h : ('\n' : Char) ∉ a) :
    splitNl (a ++ '\n' :: b) = a :: splitNl b := by
  induction a with
  | nil => simp [splitNl]
  | cons c t ih =>
    have hc : c ≠ '\n' := fun hcc => h (hcc ▸ List.mem_cons_self c t)
    have ht := ih (fun hm => h (List.mem_cons_of_mem c hm))
    simp only [List.cons_append, splitNl, if_neg hc]
    rw [show t.append ('\n' :: b) = t ++ '\n' :: b from rfl, ht]

theorem splitNl_unlines (ls : List (List Char)) (h : ∀ l ∈ ls, ('\n' : Char) ∉ l) :
    splitNl (unlines ls) = ls ++ [[]] := by
  induction ls with
  | nil => rfl
  | cons l rest ih =>
    have hl := h l (List.mem_cons_self l rest)
    have hrest := ih (fun x hx => h x (List.mem_cons_of_mem l hx))
    have hu : unlines (l :: rest) = l ++ '\n' :: unlines rest := by
      simp [unlines]
    rw [hu, splitNl_append l _ hl, hrest]
    rfl

theorem rustLines_unlines (ls : List (List Char))
    (h : ∀ l ∈ ls, ('\n' : Char) ∉ l ∧ l.getLast? ≠ some '\r') :
    rustLines (unlines ls) = ls := by
  unfold rustLines
  rw [splitNl_unlines ls (fun l hl => (h l hl).1)]
  have hlast : (ls ++ [([] : List Char)]).getLast? = some [] := by
    simp [List.getLast?_append]
  rw [if_pos hlast, List.dropLast_concat]
  have hsc : ∀ l ∈ ls, stripCarriage l = l := by
    intro l hl
    unfold stripCarriage
    rw [if_neg (h l hl).2]
  calc ls.map stripCarriage = ls.map id := List.map_congr_left hsc
    _ = ls := List.map_id ls

theorem hmGet_hmErase (k k' : List Char) (m : List (List Char × Bool)) :
    hmGet (hmErase k m) k' = if k' = k then none else hmGet m k' := by
  induction m with
  | nil => simp [hmErase, hmGet]
  | cons p t ih =>
    obtain ⟨k1, v1⟩ := p
    by_cases h1 : k1 = k
    · subst h1
      have he : hmErase k1 ((k1, v1) :: t) = hmErase k1 t := by
        simp [hmErase]
      rw [he, ih]
      by_cases h2 : k' = k1
      · simp [h2]
      · rw [if_neg h2, if_neg h2]
        have hne : k1 ≠ k' := fun hh => h2 hh.symm
        simp [hmGet, hne]
    · have he : hmErase k ((k1, v1) :: t) = (k1, v1) :: hmErase k t := by
        simp [hmErase, h1]
      rw [he]
      by_cases h2 : k1 = k'
      · subst h2
        rw [if_neg h1]
        simp [hmGet]
      · simp only [hmGet, if_neg h2]
        rw [ih]

theorem hmGet_hmInsert (k : List Char) (v : Bool) (m : HMap) (k' : List Char) :
    hmGet (hmInsert k v m) k' = if k = k' then some v else hmGet m k' := by
  unfold hmInsert
  by_cases h : k = k'
  · subst h
    simp [hmGet]
  · simp only [hmGet, if_neg h, hmGet_hmErase]
    rw [if_neg (fun hc => h hc.symm)]

theorem keys_hmErase_sublist (k : List Char) (m : List (List Char × Bool)) :
    (hmKeys (hmErase k m)).Sublist (hmKeys m) := by
  induction m with
  | nil => simp [hmErase, hmKeys]
  | cons p t ih =>
    obtain ⟨k1, v1⟩ := p
    by_cases h1 : k1 = k
    · subst h1
      have he : hmErase k1 ((k1, v1) :: t) = hmErase k1 t := by simp [hmErase]
      rw [he]
      exact List.Sublist.cons k1 ih
    · have he : hmErase k ((k1, v1) :: t) = (k1, v1) :: hmErase k t := by
        simp [hmErase, h1]
      rw [he]
      exact List.Sublist.cons₂ k1 ih

theorem not_mem_keys_hmErase (k : List Char) (m : List (List Char × Bool)) :
    k ∉ hmKeys (hmErase k m) := by
  induction m with
  | nil => simp [hmErase, hmKeys]
  | cons p t ih =>
    obtain ⟨k1, v1⟩ := p
    by_cases h1 : k1 = k
    · subst h1
      have he : hmErase k1 ((k1, v1) :: t) = hmErase k1 t := by simp [hmErase]
      rw [he]
      exact ih
    · have he : hmErase k ((k1, v1) :: t) = (k1, v1) :: hmErase k t := by
        simp [hmErase, h1]
      rw [he]
      intro hmem
      rcases List.mem_cons.mp hmem with hc | hm
      · exact h1 hc.symm
      · exact ih hm

theorem nodup_keys_hmInsert (k : List Char) (v : Bool) (m : HMap)
    (h : (hmKeys m).Nodup) : (hmKeys (hmInsert k v m)).Nodup := by
  unfold hmInsert
  simp only [hmKeys, List.map_cons, List.nodup_cons]
  exact ⟨not_mem_keys_hmErase k m, List.Nodup.sublist (keys_hmErase_sublist k m) h⟩

theorem nodup_keys_settingsStep (m : HMap) (raw : List Char)
    (h : (hmKeys m).Nodup) : (hmKeys (settingsStep m raw)).Nodup := by
  unfold settingsStep
  by_cases h1 : isPfxOf (str "- [x]") (trim raw) = true
  · rw [if_pos h1]
    cases hs : stripPfx (str "- [x] ") (trim raw) with
    | none => exact h
    | some package => exact nodup_keys_hmInsert _ _ _ h
  · rw [if_neg h1]
    by_cases h2 : isPfxOf (str "- [ ]") (trim raw) = true
    · rw [if_pos h2]
      cases hs : stripPfx (str "- [ ] ") (trim raw) with
      | none => exact h
      | some package => exact nodup_keys_hmInsert _ _ _ h
    · rw [if_neg h2]
      exact h

theorem nodup_keys_read_existing (content : List Char) :
    (hmKeys (read_existing_settings content)).Nodup := by
  unfold read_existing_settings
  generalize rustLines content = ls
  have hgen : ∀ (m : HMap), (hmKeys m).Nodup →
      (hmKeys (ls.foldl settingsStep m)).Nodup := by
    induction ls with
    | nil => intro m hm; simpa using hm
    | cons l rest ih =>
      intro m hm
      exact ih _ (nodup_keys_settingsStep m l hm)
  exact hgen [] (by simp [hmKeys])

theorem hmGet_eq_some_iff_mem (m : HMap) (k : List Char) (v : Bool)
    (h : (hmKeys m).Nodup) : hmGet m k = some v ↔ (k, v) ∈ m := by
  induction m with
  | nil => simp [hmGet]
  | cons p t ih =>
    obtain ⟨k1, v1⟩ := p
    simp only [hmKeys, List.map_cons, List.nodup_cons] at h
    by_cases h1 : k1 = k
    · subst h1
      constructor
      · intro hv
        have hv1 : v1 = v := by
          have : hmGet ((k1, v1) :: t) k1 = some v1 := by simp [hmGet]
          rw [this] at hv
          exact Option.some.inj hv
        subst hv1
        exact List.mem_cons_self _ _
      · intro hmem
        rcases List.mem_cons.mp hmem with hc | hm
        · have hv : v = v1 := congrArg Prod.snd hc
          subst hv
          simp [hmGet]
        · exact absurd (List.mem_map_of_mem (fun p => p.1) hm) h.1
    · have hg : hmGet ((k1, v1) :: t) k = hmGet t k := by
        simp [hmGet, h1]
      rw [hg, ih h.2]
      constructor
      · exact List.mem_cons_of_mem _
      · intro hmem
        rcases List.mem_cons.mp hmem with hc | hm
        · exact absurd (congrArg Prod.fst hc).symm h1
        · exact hm

theorem isPfxOf_x6_of_x5_false (line : List Char)
    (h : isPfxOf (str "- [x]") line = false) :
    isPfxOf (str "- [x] ") line = false := by
  by_contra hcon
  rw [Bool.not_eq_false] at hcon
  have := isPfxOf_of_append (str "- [x]") [' '] line (by simpa using hcon)
  rw [this] at h
  cases h

theorem isPfxOf_o6_of_o5_false (line : List Char)
    (h : isPfxOf (str "- [ ]") line = false) :
    isPfxOf (str "- [ ] ") line = false := by
  by_contra hcon
  rw [Bool.not_eq_false] at hcon
  have := isPfxOf_of_append (str "- [ ]") [' '] line (by simpa using hcon)
  rw [this] at h
  cases h

theorem isPfxOf_o6_of_x5 (line : List Char)
    (h : isPfxOf (str "- [x]") line = true) :
    isPfxOf (str "- [ ] ") line = false := by
  rcases (isPfxOf_iff_exists _ _).mp h with ⟨t, ht⟩
  subst ht
  simp [str, isPfxOf]

theorem isPfxOf_x6_of_o5 (line : List Char)
    (h : isPfxOf (str "- [ ]") line = true) :
    isPfxOf (str "- [x] ") line = false := by
  rcases (isPfxOf_iff_exists _ _).mp h with ⟨t, ht⟩
  subst ht
  simp [str, isPfxOf]

theorem hmGet_settingsStep (m : HMap) (raw : List Char) (name : List Char) :
    hmGet (settingsStep m raw) name =
      match lineEntrySpec raw with
      | none => hmGet m name
      | some kv => if kv.1 = name then some kv.2 else hmGet m name := by
  unfold settingsStep lineEntrySpec
  by_cases h6x : isPfxOf (str "- [x] ") (trim raw) = true
  · obtain ⟨t, ht⟩ := (isPfxOf_iff_exists _ _).mp h6x
    have h5x : isPfxOf (str "- [x]") (trim raw) = true :=
      isPfxOf_of_append (str "- [x]") [' '] (trim raw) (by simpa using h6x)
    have hstrip : stripPfx (str "- [x] ") (trim raw) = some t := by
      rw [ht]; exact stripPfx_append _ _
    have hdrop : (trim raw).drop 6 = t := by
      rw [ht, show (6 : Nat) = (str "- [x] ").length from rfl]
      exact List.drop_left _ _
    simp only [h5x, h6x, if_true, hstrip, hdrop, hmGet_hmInsert]
  · have h6x' : isPfxOf (str "- [x] ") (trim raw) = false := by simpa using h6x
    by_cases h5x : isPfxOf (str "- [x]") (trim raw) = true
    · have h6o' : isPfxOf (str "- [ ] ") (trim raw) = false := isPfxOf_o6_of_x5 _ h5x
      simp only [h5x, if_true, stripPfx_of_not _ _ h6x', h6x', h6o',
        Bool.false_eq_true, if_false]
    · have h5x' : isPfxOf (str "- [x]") (trim raw) = false := by simpa using h5x
      by_cases h6o : isPfxOf (str "- [ ] ") (trim raw) = true
      · obtain ⟨t, ht⟩ := (isPfxOf_iff_exists _ _).mp h6o
        have h5o : isPfxOf (str "- [ ]") (trim raw) = true :=
          isPfxOf_of_append (str "- [ ]") [' '] (trim raw) (by simpa using h6o)
        have hstrip : stripPfx (str "- [ ] ") (trim raw) = some t := by
          rw [ht]; exact stripPfx_append _ _
        have hdrop : (trim raw).drop 6 = t := by
          rw [ht, show (6 : Nat) = (str "- [ ] ").length from rfl]
          exact List.drop_left _ _
        simp only [h5x', h6x', h5o, h6o, if_true, hstrip, hdrop,
          Bool.false_eq_true, if_false, hmGet_hmInsert]
      · have h6o' : isPfxOf (str "- [ ] ") (trim raw) = false := by simpa using h6o
        by_cases h5o : isPfxOf (str "- [ ]") (trim raw) = true
        · simp only [h5x', h6x', h5o, h6o', if_true, stripPfx_of_not _ _ h6o',
            Bool.false_eq_true, if_false]
        · have h5o' : isPfxOf (str "- [ ]") (trim raw) = false := by simpa using h5o
          simp only [h5x', h6x', h5o', h6o', Bool.false_eq_true, if_false]

theorem hmGet_foldl_settings (ls : List (List Char)) (m : HMap) (name : List Char) :
    hmGet (ls.foldl settingsStep m) name =
      (ls.filterMap lineEntrySpec).foldl
        (fun acc kv => if kv.1 = name then some kv.2 else acc) (hmGet m name) := by
  induction ls generalizing m with
  | nil => simp
  | cons raw rest ih =>
    rw [List.foldl_cons, ih]
    have hstep := hmGet_settingsStep m raw name
    cases hE : lineEntrySpec raw with
    | none =>
      rw [hE] at hstep
      rw [List.filterMap_cons_none hE, hstep]
    | some kv =>
      rw [hE] at hstep
      rw [List.filterMap_cons_some hE, List.foldl_cons, hstep]

theorem hmGet_read_existing (content : List Char) (name : List Char) :
    hmGet (read_existing_settings content) name = lastFlag (rustLines content) name := by
  unfold read_existing_settings lastFlag
  rw [hmGet_foldl_settings]
  rfl

theorem isPfxOf_cons_neg (a b : Char) (p u : List Char) (h : a ≠ b) :
    isPfxOf (a :: p) (b :: u) = false := by
  rw [show isPfxOf (a :: p) (b :: u) = if a = b then isPfxOf p u else false from rfl,
    if_neg h]

theorem trim_cons_shape (c : Char) (t : List Char) (hws : rustIsWhitespace c = false) :
    trim (c :: t) = [] ∨ ∃ t', trim (c :: t) = c :: t' := by
  unfold trim
  rw [dropWhile_eq_self_of_head _ _ (by
    intro d hd
    simp only [List.head?_cons, Option.some.injEq] at hd
    exact hd ▸ hws)]
  rcases List.rdropWhile_prefix rustIsWhitespace (c :: t) with ⟨u, hu⟩
  cases hr : List.rdropWhile rustIsWhitespace (c :: t) with
  | nil => exact Or.inl rfl
  | cons d t' =>
    rw [hr] at hu
    injection hu with h1 h2
    exact Or.inr ⟨t', by rw [← h1]⟩

theorem lineEntrySpec_nil : lineEntrySpec [] = none := by decide

theorem lineEntrySpec_of_head (c : Char) (t : List Char)
    (hws : rustIsWhitespace c = false) (hc : c ≠ '-') :
    lineEntrySpec (c :: t) = none := by
  unfold lineEntrySpec
  have hx : isPfxOf (str "- [x] ") (trim (c :: t)) = false := by
    rcases trim_cons_shape c t hws with h | ⟨t', h⟩
    · rw [h]; rfl
    · rw [h, show str "- [x] " = '-' :: str " [x] " from rfl]
      exact isPfxOf_cons_neg '-' c _ _ (fun hh => hc hh.symm)
  have ho : isPfxOf (str "- [ ] ") (trim (c :: t)) = false := by
    rcases trim_cons_shape c t hws with h | ⟨t', h⟩
    · rw [h]; rfl
    · rw [h, show str "- [ ] " = '-' :: str " [ ] " from rfl]
      exact isPfxOf_cons_neg '-' c _ _ (fun hh => hc hh.symm)
  simp [hx, ho]

theorem trim_append_entry (pfx n : List Char) (hn : trim n = n) (hne : n ≠ [])
    (hh : ∀ c, pfx.head? = some c → rustIsWhitespace c = false) (hpne : pfx ≠ []) :
    trim (pfx ++ n) = pfx ++ n := by
  apply trim_eq_self
  · intro c hc
    rw [List.head?_append_of_ne_nil pfx hpne] at hc
    exact hh c hc
  · intro c hc
    rw [List.getLast?_append] at hc
    cases hgl : n.getLast? with
    | none => exact absurd (List.getLast?_eq_none_iff.mp hgl) hne
    | some d =>
      rw [hgl, Option.or_some] at hc
      injection hc with h1
      exact h1 ▸ trim_last_false n hn d hgl

theorem lineEntrySpec_entry_x (n : List Char) (hn : trim n = n) (hne : n ≠ []) :
    lineEntrySpec (str "- [x] " ++ n) = some (n, true) := by
  unfold lineEntrySpec
  have ht : trim (str "- [x] " ++ n) = str "- [x] " ++ n :=
    trim_append_entry _ n hn hne (by
      intro c hc
      simp only [show (str "- [x] ").head? = some '-' from rfl, Option.some.injEq] at hc
      subst hc
      decide) (by decide)
  rw [ht]
  have hpfx : isPfxOf (str "- [x] ") (str "- [x] " ++ n) = true := isPfxOf_append_self _ _
  rw [hpfx, if_pos rfl]
  have hdrop : (str "- [x] " ++ n).drop 6 = n := by
    rw [show (6 : Nat) = (str "- [x] ").length from rfl]
    exact List.drop_left _ _
  rw [hdrop, hn]

theorem lineEntrySpec_entry_o (n : List Char) (hn : trim n = n) (hne : n ≠ []) :
    lineEntrySpec (str "- [ ] " ++ n) = some (n, false) := by
  unfold lineEntrySpec
  have ht : trim (str "- [ ] " ++ n) = str "- [ ] " ++ n :=
    trim_append_entry _ n hn hne (by
      intro c hc
      simp only [show (str "- [ ] ").head? = some '-' from rfl, Option.some.injEq] at hc
      subst hc
      decide) (by decide)
  rw [ht]
  have hx : isPfxOf (str "- [x] ") (str "- [ ] " ++ n) = false := by
    simp [str, isPfxOf]
  have hpfx : isPfxOf (str "- [ ] ") (str "- [ ] " ++ n) = true := isPfxOf_append_self _ _
  rw [hx]
  simp only [Bool.false_eq_true, if_false]
  rw [hpfx, if_pos rfl]
  have hdrop : (str "- [ ] " ++ n).drop 6 = n := by
    rw [show (6 : Nat) = (str "- [ ] ").length from rfl]
    exact List.drop_left _ _
  rw [hdrop, hn]

theorem entryLine_eq (E : HMap) (n : List Char) :
    entryLine E n = entryCore E n ++ ['\n'] := by
  unfold entryLine entryCore
  cases hmGetD E n true <;> simp

theorem entryCore_cases (E : HMap) (n : List Char) :
    entryCore E n =
      (if hmGetD E n true then str "- [x] " else str "- [ ] ") ++ n := by
  unfold entryCore
  cases h : hmGetD E n true <;>
    simp only [h, Bool.false_eq_true, if_false, if_true] <;> rfl

theorem generate_eq_unlines (formulae casks : List (List Char)) (E : HMap)
    (now : List Char) :
    generate_settings_content formulae casks E none now =
      unlines ([str "# Brew Auto-Update Settings", [], str "Generated on: " ++ now, [],
        str "## Formulae", []]
        ++ (sortNames formulae).map (entryCore E)
        ++ ([[], str "## Casks", []]
        ++ (sortNames casks).map (entryCore E))) := by
  unfold generate_settings_content unlines
  simp only [List.map_append, List.map_cons, List.map_nil, List.flatten_append,
    List.flatten_cons, List.flatten_nil, List.map_map, List.nil_append]
  rw [show ((fun l => l ++ ['\n']) ∘ entryCore E) = entryLine E from
    funext (fun n => (entryLine_eq E n).symm)]
  rw [show str "# Brew Auto-Update Settings\n\n"
      = (str "# Brew Auto-Update Settings" ++ ['\n']) ++ ['\n'] from rfl]
  rw [show str "\n\n" = (['\n'] : List Char) ++ ['\n'] from rfl]
  rw [show str "## Formulae\n\n" = (str "## Formulae" ++ ['\n']) ++ ['\n'] from rfl]
  rw [show str "\n## Casks\n\n"
      = (['\n'] : List Char) ++ ((str "## Casks" ++ ['\n']) ++ ['\n']) from rfl]
  simp [List.append_assoc]

theorem foldl_lastwins (f : List Char → Bool) (l : List (List Char))
    (name : List Char) (init : Option Bool) :
    (l.map (fun n => (n, f n))).foldl
        (fun acc kv => if kv.1 = name then some kv.2 else acc) init
      = if name ∈ l then some (f name) else init := by
  induction l generalizing init with
  | nil => simp
  | cons x t ih =>
    rw [List.map_cons, List.foldl_cons, ih]
    by_cases hmem : name ∈ t
    · simp [hmem]
    · by_cases hx : x = name
      · subst hx
        simp [hmem]
      · have h1 : name ∉ x :: t := by
          intro hc
          rcases List.mem_cons.mp hc with hc | hc
          · exact hx hc.symm
          · exact hmem hc
        simp [hmem, hx, h1]

theorem mem_sortNames (l : List (List Char)) (a : List Char) :
    a ∈ sortNames l ↔ a ∈ l :=
  (List.perm_insertionSort (fun a b => nameLe a b = true) l).mem_iff

theorem filterMap_entry (E : HMap) (l : List (List Char))
    (h : ∀ n ∈ l, trim n = n ∧ n ≠ []) :
    (l.map (entryCore E)).filterMap lineEntrySpec
      = l.map (fun n => (n, hmGetD E n true)) := by
  rw [List.filterMap_map]
  have hcong : ∀ n ∈ l, (lineEntrySpec ∘ entryCore E) n
      = (some ∘ fun n => (n, hmGetD E n true)) n := by
    intro n hn
    obtain ⟨h1, h2⟩ := h n hn
    simp only [Function.comp_apply]
    rw [entryCore_cases]
    cases hf : hmGetD E n true
    · simp only [Bool.false_eq_true, if_false]
      exact lineEntrySpec_entry_o n h1 h2
    · simp only [if_true]
      exact lineEntrySpec_entry_x n h1 h2
  rw [List.filterMap_congr hcong, List.filterMap_eq_map]

theorem entryCore_line_ok (E : HMap) (n : List Char)
    (h1 : trim n = n) (h2 : n ≠ []) (h3 : ('\n' : Char) ∉ n) :
    ('\n' : Char) ∉ entryCore E n ∧ (entryCore E n).getLast? ≠ some '\r' := by
  rw [entryCore_cases]
  constructor
  · intro hc
    rcases List.mem_append.mp hc with hc | hc
    · have hng : ('\n' : Char) ∉
          (if hmGetD E n true then str "- [x] " else str "- [ ] ") := by
        cases hmGetD E n true <;> decide
      exact hng hc
    · exact h3 hc
  · rw [List.getLast?_append]
    cases hgl : n.getLast? with
    | none => exact absurd (List.getLast?_eq_none_iff.mp hgl) h2
    | some d =>
      rw [Option.or_some]
      intro hc
      injection hc with h4
      have hws := trim_last_false n h1 d hgl
      rw [h4] at hws
      exact absurd hws (by decide)

theorem roundtrip_get (formulae casks : List (List Char)) (E : HMap)
    (now name : List Char)
    (hnow_nl : ('\n' : Char) ∉ now) (hnow_cr : now.getLast? ≠ some '\r')
    (hnames : ∀ n ∈ formulae ++ casks, trim n = n ∧ n ≠ [] ∧ ('\n' : Char) ∉ n) :
    hmGet (read_existing_settings
        (generate_settings_content formulae casks E none now)) name
      = if name ∈ formulae ++ casks then some (hmGetD E name true) else none := by
  have hnamesF : ∀ n ∈ sortNames formulae,
      trim n = n ∧ n ≠ [] ∧ ('\n' : Char) ∉ n := fun n hn =>
    hnames n (List.mem_append.mpr (Or.inl ((mem_sortNames _ _).mp hn)))
  have hnamesC : ∀ n ∈ sortNames casks,
      trim n = n ∧ n ≠ [] ∧ ('\n' : Char) ∉ n := fun n hn =>
    hnames n (List.mem_append.mpr (Or.inr ((mem_sortNames _ _).mp hn)))
  have hGlineNl : ('\n' : Char) ∉ str "Generated on: " ++ now := by
    intro hc
    rcases List.mem_append.mp hc with hc | hc
    · revert hc; decide
    · exact hnow_nl hc
  have hGlineCr : (str "Generated on: " ++ now).getLast? ≠ some '\r' := by
    rw [List.getLast?_append]
    cases hgl : now.getLast? with
    | none => decide
    | some d =>
      rw [Option.or_some]
      intro hc
      exact hnow_cr (hgl.trans hc)
  have hconds : ∀ l ∈ ([str "# Brew Auto-Update Settings", [],
        str "Generated on: " ++ now, [], str "## Formulae", []]
        ++ (sortNames formulae).map (entryCore E)
        ++ ([[], str "## Casks", []]
        ++ (sortNames casks).map (entryCore E))),
      ('\n' : Char) ∉ l ∧ l.getLast? ≠ some '\r' := by
    intro l hl
    rcases List.mem_append.mp hl with hl | hl
    · rcases List.mem_append.mp hl with hl | hl
      · simp only [List.mem_cons, List.not_mem_nil, or_false] at hl
        rcases hl with h | h | h | h | h | h
        · subst h; exact ⟨by decide, by decide⟩
        · subst h; exact ⟨by decide, by decide⟩
        · subst h; exact ⟨hGlineNl, hGlineCr⟩
        · subst h; exact ⟨by decide, by decide⟩
        · subst h; exact ⟨by decide, by decide⟩
        · subst h; exact ⟨by decide, by decide⟩
      · rcases List.mem_map.mp hl with ⟨n, hn, rfl⟩
        obtain ⟨h1, h2, h3⟩ := hnamesF n hn
        exact entryCore_line_ok E n h1 h2 h3
    · rcases List.mem_append.mp hl with hl | hl
      · simp only [List.mem_cons, List.not_mem_nil, or_false] at hl
        rcases hl with h | h | h
        · subst h; exact ⟨by decide, by decide⟩
        · subst h; exact ⟨by decide, by decide⟩
        · subst h; exact ⟨by decide, by decide⟩
      · rcases List.mem_map.mp hl with ⟨n, hn, rfl⟩
        obtain ⟨h1, h2, h3⟩ := hnamesC n hn
        exact entryCore_line_ok E n h1 h2 h3
  rw [generate_eq_unlines, hmGet_read_existing, rustLines_unlines _ hconds]
  unfold lastFlag
  rw [List.filterMap_append, List.filterMap_append, List.filterMap_append]
  have hGen : lineEntrySpec (str "Generated on: " ++ now) = none := by
    rw [show str "Generated on: " ++ now = 'G' :: (str "enerated on: " ++ now) from rfl]
    exact lineEntrySpec_of_head 'G' _ (by decide) (by decide)
  have h1 : List.filterMap lineEntrySpec [str "# Brew Auto-Update Settings", [],
      str "Generated on: " ++ now, [], str "## Formulae", []] = [] := by
    simp [List.filterMap_cons, lineEntrySpec_nil, hGen,
      (by decide : lineEntrySpec (str "# Brew Auto-Update Settings") = none),
      (by decide : lineEntrySpec (str "## Formulae") = none)]
  have h2 : List.filterMap lineEntrySpec [[], str "## Casks", []] = [] := by
    simp [List.filterMap_cons, lineEntrySpec_nil,
      (by decide : lineEntrySpec (str "## Casks") = none)]
  rw [h1, h2,
    filterMap_entry E (sortNames formulae)
      (fun n hn => ⟨(hnamesF n hn).1, (hnamesF n hn).2.1⟩),
    filterMap_entry E (sortNames casks)
      (fun n hn => ⟨(hnamesC n hn).1, (hnamesC n hn).2.1⟩)]
  simp only [List.nil_append]
  rw [← List.map_append, foldl_lastwins]
  by_cases hm : name ∈ formulae ++ casks
  · have hm' : name ∈ sortNames formulae ++ sortNames casks := by
      rcases List.mem_append.mp hm with h | h
      · exact List.mem_append.mpr (Or.inl ((mem_sortNames _ _).mpr h))
      · exact List.mem_append.mpr (Or.inr ((mem_sortNames _ _).mpr h))
    simp [hm, hm']
  · have hm' : name ∉ sortNames formulae ++ sortNames casks := by
      intro hc
      rcases List.mem_append.mp hc with h | h
      · exact hm (List.mem_append.mpr (Or.inl ((mem_sortNames _ _).mp h)))
      · exact hm (List.mem_append.mpr (Or.inr ((mem_sortNames _ _).mp h)))
    simp [hm, hm']

theorem parse_wellformed_aux (name cur op avail : List Char) (kind : PackageType)
    (hn1 : findSub (str " (") name = none) (hn2 : findSub (str ") ") name = none)
    (hc1 : findSub (str " (") cur = none) (hc2 : findSub (str ") ") cur = none)
    (ha1 : findSub (str " (") avail = none) (ha2 : findSub (str ") ") avail = none)
    (hnt : trim name = name) (hat : trim avail = avail) (hane : avail ≠ [])
    (hope : op ≠ []) (hopws : ∀ c ∈ op, rustIsWhitespace c = false) :
    parse_outdated_line (name ++ str " (" ++ cur ++ str ") " ++ op ++ [' '] ++ avail)
      kind = some ⟨name, cur, avail, kind⟩ := by
  have hsp : str " (" = ([' ', '('] : List Char) := rfl
  have hcl : str ") " = ([')', ' '] : List Char) := rfl
  rw [hsp] at hn1 hc1 ha1
  rw [hcl] at hn2 hc2 ha2
  have hassoc : name ++ [' ', '('] ++ cur ++ [')', ' '] ++ op ++ [' '] ++ avail
      = name ++ [' ', '('] ++ (cur ++ [')', ' '] ++ (op ++ [' '] ++ avail)) := by
    simp [List.append_assoc]
  have e1 : findSub [' ', '(']
      (name ++ [' ', '('] ++ (cur ++ [')', ' '] ++ (op ++ [' '] ++ avail)))
      = some name.length := findSub_pair (by decide) name _ hn1
  have htake : (name ++ [' ', '('] ++ (cur ++ [')', ' '] ++ (op ++ [' '] ++ avail))).take
      name.length = name := by
    rw [List.append_assoc, List.append_assoc]
    exact List.take_left _ _
  have hdrop : (name ++ [' ', '('] ++ (cur ++ [')', ' '] ++ (op ++ [' '] ++ avail))).drop
      (name.length + 2)
      = cur ++ [')', ' '] ++ (op ++ [' '] ++ avail) := by
    rw [show name.length + 2 = (name ++ [' ', '(']).length from by simp]
    exact List.drop_left _ _
  have e2 : findSub [')', ' '] (cur ++ [')', ' '] ++ (op ++ [' '] ++ avail))
      = some cur.length := findSub_pair (by decide) cur _ hc2
  have htake2 : (cur ++ [')', ' '] ++ (op ++ [' '] ++ avail)).take cur.length = cur := by
    rw [List.append_assoc]
    exact List.take_left _ _
  have hdrop2 : (cur ++ [')', ' '] ++ (op ++ [' '] ++ avail)).drop (cur.length + 2)
      = op ++ [' '] ++ avail := by
    rw [show cur.length + 2 = (cur ++ [')', ' ']).length from by simp]
    exact List.drop_left _ _
  have hspop : (' ' : Char) ∉ op := by
    intro hc
    have := hopws ' ' hc
    exact absurd this (by decide)
  have hremtrim : trim (op ++ [' '] ++ avail) = op ++ [' '] ++ avail := by
    apply trim_eq_self
    · intro c hc
      rw [List.append_assoc, List.head?_append_of_ne_nil op hope] at hc
      cases op with
      | nil => exact absurd rfl hope
      | cons o t =>
        simp only [List.head?_cons, Option.some.injEq] at hc
        exact hc ▸ hopws o (List.mem_cons_self o t)
    · intro c hc
      rw [List.getLast?_append] at hc
      cases hgl : avail.getLast? with
      | none => exact absurd (List.getLast?_eq_none_iff.mp hgl) hane
      | some d =>
        rw [hgl, Option.or_some] at hc
        injection hc with h1
        exact h1 ▸ trim_last_false avail hat d hgl
  have e3 : findSub [' '] (op ++ [' '] ++ avail) = some op.length := by
    rw [List.append_assoc]
    exact findSub_single ' ' op avail hspop
  have hdrop3 : (op ++ [' '] ++ avail).drop (op.length + 1) = avail := by
    rw [show op.length + 1 = (op ++ [' ']).length from by simp]
    exact List.drop_left _ _
  simp only [parse_outdated_line, hsp, hcl, hassoc, e1, htake, hdrop, e2, htake2,
    hdrop2, hremtrim, e3, hdrop3, hnt, hat]

theorem nameLe_total (a b : List Char) : (nameLe a b || nameLe b a) = true := by
  induction a generalizing b with
  | nil => simp [nameLe]
  | cons x as ih =>
    cases b with
    | nil => simp [nameLe]
    | cons y bs =>
      rcases Nat.lt_trichotomy x.toNat y.toNat with h | h | h
      · simp [nameLe, h]
      · simpa [nameLe, h] using ih bs
      · simp [nameLe, h]

theorem nameLe_trans (a b c : List Char) (hab : nameLe a b = true)
    (hbc : nameLe b c = true) : nameLe a c = true := by
  induction a generalizing b c with
  | nil => simp [nameLe]
  | cons x as ih =>
    cases b with
    | nil => simp [nameLe] at hab
    | cons y bs =>
      cases c with
      | nil => simp [nameLe] at hbc
      | cons z cs =>
        by_cases h1 : x.toNat < y.toNat
        · by_cases h2 : y.toNat < z.toNat
          · have h3 : x.toNat < z.toNat := Nat.lt_trans h1 h2
            simp [nameLe, h3]
          · by_cases h3 : y.toNat = z.toNat
            · have h4 : x.toNat < z.toNat := h3 ▸ h1
              simp [nameLe, h4]
            · simp [nameLe, h2, h3] at hbc
        · by_cases h4 : x.toNat = y.toNat
          · have hab' : nameLe as bs = true := by
              simpa [nameLe, h1, h4] using hab
            by_cases h2 : y.toNat < z.toNat
            · have h5 : x.toNat < z.toNat := h4 ▸ h2
              simp [nameLe, h5]
            · by_cases h3 : y.toNat = z.toNat
              · have hbc' : nameLe bs cs = true := by
                  simpa [nameLe, h2, h3] using hbc
                have h6 : x.toNat = z.toNat := h4.trans h3
                have h7 : ¬ x.toNat < z.toNat := by omega
                simp [nameLe, h6, h7, ih bs cs hab' hbc']
              · simp [nameLe, h2, h3] at hbc
          · simp [nameLe, h1, h4] at hab

theorem entryLine_eq_specLine (E : HMap) (n : List Char) :
    entryLine E n = specLine E n := by
  unfold entryLine specLine hmGetD
  cases h : hmGet E n with
  | none => rfl
  | some v => cases v <;> rfl

theorem parse_none_iff_aux (line : List Char) (kind : PackageType) :
    parse_outdated_line line kind = none ↔ malformedOutdated line = true := by
  unfold parse_outdated_line malformedOutdated
  cases h1 : findSub (str " (") line with
  | none => simp [h1]
  | some pos =>
    cases h2 : findSub (str ") ") (line.drop (pos + 2)) with
    | none => simp [h1, h2]
    | some ep =>
      cases h3 : findSub [' '] (trim (line.drop (pos + 2 + (ep + 2)))) with
      | none => simp [h1, h2, h3]
      | some sp => simp [h1, h2, h3]

theorem prevStep_skip_header (st : PrevState) (hdr : List Char)
    (h1 : isPfxOf (str "##") (trim hdr) = true)
    (h2 : trim hdr ≠ str "## Formulae") (h3 : trim hdr ≠ str "## Casks") :
    prevStep st hdr = st := by
  unfold prevStep
  rw [if_neg h2, if_neg h3]
  have hpfx : isPfxOf (str "- [") (trim hdr) = false := by
    obtain ⟨t, ht⟩ := (isPfxOf_iff_exists _ _).mp h1
    rw [ht, show str "##" ++ t = '#' :: ('#' :: t) from rfl,
      show str "- [" = '-' :: str " [" from rfl]
    exact isPfxOf_cons_neg '-' '#' _ _ (by decide)
  rw [hpfx]
  simp

theorem mem_of_mem_hmErase (k : List Char) (m : HMap) (kv : List Char × Bool)
    (h : kv ∈ hmErase k m) : kv ∈ m := by
  induction m with
  | nil => simpa [hmErase] using h
  | cons p t ih =>
    obtain ⟨k1, v1⟩ := p
    by_cases h1 : k1 = k
    · subst h1
      rw [show hmErase k1 ((k1, v1) :: t) = hmErase k1 t from by simp [hmErase]] at h
      exact List.mem_cons_of_mem _ (ih h)
    · rw [show hmErase k ((k1, v1) :: t) = (k1, v1) :: hmErase k t from by
        simp [hmErase, h1]] at h
      rcases List.mem_cons.mp h with h | h
      · exact h ▸ List.mem_cons_self _ _
      · exact List.mem_cons_of_mem _ (ih h)

theorem stripPfx_some_append (p s t : List Char) (h : stripPfx p s = some t) :
    s = p ++ t := by
  unfold stripPfx at h
  by_cases hp : isPfxOf p s = true
  · rw [if_pos hp] at h
    injection h with h1
    obtain ⟨u, hu⟩ := (isPfxOf_iff_exists _ _).mp hp
    subst hu
    rw [List.drop_left] at h1
    rw [h1]
  · rw [if_neg hp] at h
    cases h

theorem key_ne_nil (raw t pfxsp : List Char)
    (hsp : pfxsp.getLast? = some ' ') (ht : trim raw = pfxsp ++ t) :
    trim t ≠ [] := by
  intro htn
  rcases htt : t.getLast? with _ | d
  · have hte : t = [] := List.getLast?_eq_none_iff.mp htt
    subst hte
    rw [List.append_nil] at ht
    have hws := trim_getLast_false raw ' ' (by rw [ht]; exact hsp)
    exact absurd hws (by decide)
  · have hgl : (trim raw).getLast? = some d := by
      rw [ht, List.getLast?_append, htt, Option.or_some]
    have hws := trim_getLast_false raw d hgl
    have hdm : d ∈ t := List.mem_of_mem_getLast? htt
    have hall := trim_nil_all_ws t htn d hdm
    rw [hall] at hws
    cases hws

theorem settingsStep_key_invariant (m : HMap) (raw : List Char)
    (hm : ∀ kv ∈ m, kv.1 ≠ ([] : List Char)) :
    ∀ kv ∈ settingsStep m raw, kv.1 ≠ ([] : List Char) := by
  intro kv hkv
  unfold settingsStep at hkv
  by_cases h5x : isPfxOf (str "- [x]") (trim raw) = true
  · rw [if_pos h5x] at hkv
    cases hs : stripPfx (str "- [x] ") (trim raw) with
    | none => rw [hs] at hkv; exact hm kv hkv
    | some package =>
      rw [hs] at hkv
      unfold hmInsert at hkv
      rcases List.mem_cons.mp hkv with hkv | hkv
      · rw [hkv]
        exact key_ne_nil raw package (str "- [x] ") (by decide)
          (stripPfx_some_append _ _ _ hs)
      · exact hm kv (mem_of_mem_hmErase _ _ _ hkv)
  · rw [if_neg h5x] at hkv
    by_cases h5o : isPfxOf (str "- [ ]") (trim raw) = true
    · rw [if_pos h5o] at hkv
      cases hs : stripPfx (str "- [ ] ") (trim raw) with
      | none => rw [hs] at hkv; exact hm kv hkv
      | some package =>
        rw [hs] at hkv
        unfold hmInsert at hkv
        rcases List.mem_cons.mp hkv with hkv | hkv
        · rw [hkv]
          exact key_ne_nil raw package (str "- [ ] ") (by decide)
            (stripPfx_some_append _ _ _ hs)
        · exact hm kv (mem_of_mem_hmErase _ _ _ hkv)
    · rw [if_neg h5o] at hkv
      exact hm kv hkv

theorem read_previous_lines_skip (ls1 ls2 : List (List Char)) (hdr : List Char)
    (h1 : isPfxOf (str "##") (trim hdr) = true)
    (h2 : trim hdr ≠ str "## Formulae") (h3 : trim hdr ≠ str "## Casks") :
    read_previous_lines (ls1 ++ hdr :: ls2) = read_previous_lines (ls1 ++ ls2) := by
  unfold read_previous_lines
  rw [List.foldl_append, List.foldl_append, List.foldl_cons,
    prevStep_skip_header _ hdr h1 h2 h3]

theorem read_existing_keys_ne_nil (content : List Char) :
    ∀ kv ∈ read_existing_settings content, kv.1 ≠ ([] : List Char) := by
  unfold read_existing_settings
  generalize rustLines content = ls
  have hgen : ∀ (m : HMap), (∀ kv ∈ m, kv.1 ≠ ([] : List Char)) →
      ∀ kv ∈ ls.foldl settingsStep m, kv.1 ≠ ([] : List Char) := by
    induction ls with
    | nil => intro m hm; simpa using hm
    | cons l rest ih =>
      intro m hm
      exact ih _ (settingsStep_key_invariant m l hm)
  exact hgen [] (by simp)

theorem upgradeable_iff_aux (content : List Char) (outdated : List OutdatedPackage)
    (pkg : OutdatedPackage) :
    pkg ∈ upgradeable_packages (read_existing_settings content) outdated ↔
      pkg ∈ outdated ∧ hmGet (read_existing_settings content) pkg.name = some true := by
  unfold upgradeable_packages
  rw [List.mem_filter]
  constructor
  · rintro ⟨hmem, hdec⟩
    refine ⟨hmem, ?_⟩
    have hname : pkg.name ∈ enabled_packages (read_existing_settings content) :=
      of_decide_eq_true hdec
    unfold enabled_packages at hname
    rcases List.mem_map.mp hname with ⟨p, hp, hpe⟩
    rcases List.mem_filter.mp hp with ⟨hpm, hpv⟩
    have hpair : p = (pkg.name, true) := by
      obtain ⟨pk, pv⟩ := p
      simp only at hpe hpv
      rw [hpe, hpv]
    rw [hpair] at hpm
    exact (hmGet_eq_some_iff_mem _ _ _ (nodup_keys_read_existing content)).mpr hpm
  · rintro ⟨hmem, hget⟩
    refine ⟨hmem, decide_eq_true ?_⟩
    have hp : (pkg.name, true) ∈ read_existing_settings content :=
      (hmGet_eq_some_iff_mem _ _ _ (nodup_keys_read_existing content)).mp hget
    unfold enabled_packages
    exact List.mem_map.mpr ⟨(pkg.name, true), List.mem_filter.mpr ⟨hp, rfl⟩, rfl⟩

theorem upgrade_empty_bails_aux (content : List Char) (outdated : List OutdatedPackage)
    (h : read_existing_settings content = []) :
    upgrade_command_model true content outdated = UpgradeOutcome.errNoPackages := by
  unfold upgrade_command_model
  rw [h]
  rfl

theorem calculate_changes_eq_setdiff_aux (cf cc pf pc : List (List Char))
    (h1 : cf.Nodup) (h2 : cc.Nodup) (h3 : pf.Nodup) (h4 : pc.Nodup) :
    calculate_package_changes cf cc (some pf) (some pc)
      = ⟨setDiffCard cf pf, setDiffCard pf cf, setDiffCard cc pc, setDiffCard pc cc⟩ := by
  unfold calculate_package_changes setDiffCard
  rw [List.dedup_eq_self.mpr h1, List.dedup_eq_self.mpr h2,
    List.dedup_eq_self.mpr h3, List.dedup_eq_self.mpr h4]

theorem generate_spec_aux (formulae casks : List (List Char)) (E : HMap)
    (stats : Option (List Char)) (now : List Char) :
    ∃ F C : List (List Char),
      F.Perm formulae ∧ C.Perm casks ∧
      List.Sorted (fun a b => nameLe a b = true) F ∧
      List.Sorted (fun a b => nameLe a b = true) C ∧
      generate_settings_content formulae casks E stats now =
        str "# Brew Auto-Update Settings\n\n" ++ str "Generated on: " ++ now
          ++ str "\n\n" ++ stats.getD []
          ++ str "## Formulae\n\n" ++ (F.map (specLine E)).flatten
          ++ str "\n## Casks\n\n" ++ (C.map (specLine E)).flatten := by
  haveI htot : IsTotal (List Char) (fun a b => nameLe a b = true) :=
    ⟨fun a b => by
      have h := nameLe_total a b
      rcases Bool.or_eq_true_iff.mp h with h | h
      · exact Or.inl h
      · exact Or.inr h⟩
  haveI htr : IsTrans (List Char) (fun a b => nameLe a b = true) :=
    ⟨fun a b c => nameLe_trans a b c⟩
  refine ⟨sortNames formulae, sortNames casks,
    List.perm_insertionSort _ _, List.perm_insertionSort _ _,
    List.sorted_insertionSort _ _, List.sorted_insertionSort _ _, ?_⟩
  unfold generate_settings_content
  have hstats : (match stats with | some s => s | none => ([] : List Char))
      = stats.getD [] := by
    cases stats <;> rfl
  rw [hstats,
    List.map_congr_left (fun n _ => entryLine_eq_specLine E n),
    List.map_congr_left (fun n _ => entryLine_eq_specLine E n)]

/-- C1 (corrected): parsing the checklist generated from name lists and an
enablement map yields, for every name, the entry `some (E.get name ?? true)`
when the name occurs in the formula or cask lists and `none` otherwise —
provided every listed name is trimmed, non-empty and newline-free, and the
timestamp contains no line break or carriage return.  Unrestricted names
falsify the claim (see the counterexample). -/
theorem generate_parse_roundtrip (formulae casks : List (List Char)) (E : HMap)
    (now name : List Char)
    (hnow_nl : ('\n' : Char) ∉ now) (hnow_cr : now.getLast? ≠ some '\r')
    (hnames : ∀ n ∈ formulae ++ casks, trim n = n ∧ n ≠ [] ∧ ('\n' : Char) ∉ n) :
    hmGet (read_existing_settings
        (generate_settings_content formulae casks E none now)) name
      = if name ∈ formulae ++ casks then some (hmGetD E name true) else none :=
  roundtrip_get formulae casks E now name hnow_nl hnow_cr hnames

/-- C1 witness: the round-trip theorem applied to the concrete inventory
`formulae = [git]`, `casks = [docker]`, `E = {docker ↦ false}`. -/
theorem generate_parse_roundtrip_witness :
    (('\n' : Char) ∉ str "2024-08-22")
    ∧ (∀ n ∈ [str "git"] ++ [str "docker"],
        trim n = n ∧ n ≠ [] ∧ ('\n' : Char) ∉ n)
    ∧ hmGet (read_existing_settings (generate_settings_content [str "git"]
        [str "docker"] [(str "docker", false)] none (str "2024-08-22")))
        (str "docker")
      = if str "docker" ∈ [str "git"] ++ [str "docker"]
        then some (hmGetD [(str "docker", false)] (str "docker") true) else none :=
  ⟨by decide, by decide,
    generate_parse_roundtrip [str "git"] [str "docker"] [(str "docker", false)]
      (str "2024-08-22") (str "docker") (by decide) (by decide) (by decide)⟩

/-- C1 counterexample: with the formula name `" git"` (which contains
neither delimiter) and `E = {" git" ↦ false}`, the round-trip loses the
name: the parsed map has no key `" git"` (the generator's output is
re-parsed with trimming, so only `"git"` appears), contradicting the claim
that every generated name is a key and keeps its flag from `E`. -/
theorem generate_parse_roundtrip_counterexample :
    hmGet (read_existing_settings (generate_settings_content [str " git"] []
        [(str " git", false)] none (str "T"))) (str " git") = none
    ∧ hmGetD [(str " git", false)] (str " git") true = false := by
  decide

/-- C2 (corrected): a line `name ++ " (" ++ cur ++ ") " ++ op ++ " " ++ avail`
parses to exactly `(name, cur, avail, kind)` when, beyond the claim's
delimiter-freedom conditions, `name` and `avail` are trimmed, `avail` is
non-empty, and the operator token is non-empty and whitespace-free.  For an
untrimmed `name` the parser returns the trimmed name instead (see the
counterexample). -/
theorem parse_outdated_line_wellformed (name cur op avail : List Char)
    (kind : PackageType)
    (hn1 : findSub (str " (") name = none) (hn2 : findSub (str ") ") name = none)
    (hc1 : findSub (str " (") cur = none) (hc2 : findSub (str ") ") cur = none)
    (ha1 : findSub (str " (") avail = none) (ha2 : findSub (str ") ") avail = none)
    (hnt : trim name = name) (hat : trim avail = avail) (hane : avail ≠ [])
    (hope : op ≠ []) (hopws : ∀ c ∈ op, rustIsWhitespace c = false) :
    parse_outdated_line (name ++ str " (" ++ cur ++ str ") " ++ op ++ [' '] ++ avail)
      kind = some ⟨name, cur, avail, kind⟩ :=
  parse_wellformed_aux name cur op avail kind hn1 hn2 hc1 hc2 ha1 ha2 hnt hat
    hane hope hopws

/-- C2 witness: the well-formed parse theorem at the repository's own test
line `"git (2.40.0) < 2.41.0"`. -/
theorem parse_outdated_line_wellformed_witness :
    trim (str "git") = str "git"
    ∧ parse_outdated_line (str "git" ++ str " (" ++ str "2.40.0" ++ str ") "
        ++ str "<" ++ [' '] ++ str "2.41.0") PackageType.Formula
      = some ⟨str "git", str "2.40.0", str "2.41.0", PackageType.Formula⟩ :=
  ⟨by decide,
    parse_outdated_line_wellformed (str "git") (str "2.40.0") (str "<")
      (str "2.41.0") PackageType.Formula (by decide) (by decide) (by decide)
      (by decide) (by decide) (by decide) (by decide) (by decide) (by decide)
      (by decide) (by decide)⟩

/-- C2 counterexample: the line `" git (1) < 2"` satisfies the claim's
conditions with `name = " git"` (no `" ("` or `") "` inside, no spaces by
the operator), yet the parser returns name `"git"`, not `" git"`: the name
slice is trimmed. -/
theorem parse_outdated_line_wellformed_counterexample :
    parse_outdated_line (str " git (1) < 2") PackageType.Formula
      = some ⟨str "git", str "1", str "2", PackageType.Formula⟩
    ∧ str "git" ≠ str " git" := by
  decide

/-- C3 (corrected): the upgrade filter keeps an outdated record if and only
if the checklist map binds its name to `true`.  A name absent from the map
is dropped — the default-enabled policy does not apply to this filter (see
the counterexample). -/
theorem upgrade_filter_keeps_iff (content : List Char)
    (outdated : List OutdatedPackage) (pkg : OutdatedPackage) :
    pkg ∈ upgradeable_packages (read_existing_settings content) outdated ↔
      pkg ∈ outdated ∧ hmGet (read_existing_settings content) pkg.name = some true :=
  upgradeable_iff_aux content outdated pkg

/-- C3 counterexample: with a checklist containing only `- [x] git`, the
outdated package `node` — absent from the map, hence enabled under the
default-enabled reading that the claim applies to filtering — is not
handed to the picker: the filter output is empty. -/
theorem upgrade_filter_keeps_iff_counterexample :
    upgradeable_packages (read_existing_settings (str "- [x] git"))
        [⟨str "node", str "1.0", str "2.0", PackageType.Formula⟩] = []
    ∧ hmGetD (read_existing_settings (str "- [x] git")) (str "node") true = true := by
  decide

/-- C4 (confirmed): the outdated-line parser returns nothing exactly when
the line lacks `" ("`, or lacks `") "` after the first `" ("`, or the
trimmed remainder after `") "` contains no space; such lines yield no
record rather than an error. -/
theorem parse_outdated_line_none_iff (line : List Char) (kind : PackageType) :
    parse_outdated_line line kind = none ↔ malformedOutdated line = true :=
  parse_none_iff_aux line kind

/-- C5 (confirmed): the checklist parser maps a name to the flag of the
last checkbox line carrying it — trimmed lines starting with `"- [x] "`
give `true`, with `"- [ ] "` give `false`, every other line is ignored,
and a later line overrides an earlier one. -/
theorem read_existing_settings_lastwins (content : List Char) (name : List Char) :
    hmGet (read_existing_settings content) name = lastFlag (rustLines content) name :=
  hmGet_read_existing content name

/-- C6 (confirmed): the generated checklist consists of the title and
timestamp, the optional statistics block, and the two sections, each
listing the corresponding name list sorted ascending in codepoint order,
every name rendered checked unless the map binds it to `false`. -/
theorem generate_settings_content_spec (formulae casks : List (List Char))
    (E : HMap) (stats : Option (List Char)) (now : List Char) :
    ∃ F C : List (List Char),
      F.Perm formulae ∧ C.Perm casks ∧
      List.Sorted (fun a b => nameLe a b = true) F ∧
      List.Sorted (fun a b => nameLe a b = true) C ∧
      generate_settings_content formulae casks E stats now =
        str "# Brew Auto-Update Settings\n\n" ++ str "Generated on: " ++ now
          ++ str "\n\n" ++ stats.getD []
          ++ str "## Formulae\n\n" ++ (F.map (specLine E)).flatten
          ++ str "\n## Casks\n\n" ++ (C.map (specLine E)).flatten :=
  generate_spec_aux formulae casks E stats now

/-- C7 (corrected): an unrecognized section header (a trimmed line starting
with `"##"` that is neither `"## Formulae"` nor `"## Casks"`) is a no-op:
it leaves the cursor unchanged rather than resetting it, so following
entry lines are still routed to the last recognized section (see the
counterexample). -/
theorem read_previous_unrecognized_header_noop (ls1 ls2 : List (List Char))
    (hdr : List Char)
    (h1 : isPfxOf (str "##") (trim hdr) = true)
    (h2 : trim hdr ≠ str "## Formulae") (h3 : trim hdr ≠ str "## Casks") :
    read_previous_lines (ls1 ++ hdr :: ls2) = read_previous_lines (ls1 ++ ls2) :=
  read_previous_lines_skip ls1 ls2 hdr h1 h2 h3

/-- C7 witness: inserting `"## Other"` between two entry lines of the
formula section changes nothing. -/
theorem read_previous_unrecognized_header_noop_witness :
    trim (str "## Other") ≠ str "## Formulae"
    ∧ read_previous_lines ([str "## Formulae", str "- [x] a"]
        ++ str "## Other" :: [str "- [x] b"])
      = read_previous_lines ([str "## Formulae", str "- [x] a"] ++ [str "- [x] b"]) :=
  ⟨by decide,
    read_previous_unrecognized_header_noop [str "## Formulae", str "- [x] a"]
      [str "- [x] b"] (str "## Other") (by decide) (by decide) (by decide)⟩

/-- C7 counterexample: after `"## Other"`, the entry `- [x] b` is still
appended to the formula list; the claim predicts it is dropped (yielding
`(["a"], [])`). -/
theorem read_previous_unrecognized_header_noop_counterexample :
    read_previous_packages (str "## Formulae\n- [x] a\n## Other\n- [x] b")
      = ([str "a", str "b"], [])
    ∧ ([str "a", str "b"], ([] : List (List Char)))
      ≠ ([str "a"], ([] : List (List Char))) := by
  decide

/-- C8 (corrected): for duplicate-free name lists the change computation
returns the set-difference cardinalities, and a missing previous list for
a section zeroes both of that section's counts; with duplicates the code
counts occurrences, not set members (see the counterexample). -/
theorem calculate_package_changes_spec (cf cc pf pc : List (List Char))
    (pfo pco : Option (List (List Char)))
    (h1 : cf.Nodup) (h2 : cc.Nodup) (h3 : pf.Nodup) (h4 : pc.Nodup) :
    calculate_package_changes cf cc (some pf) (some pc)
      = ⟨setDiffCard cf pf, setDiffCard pf cf, setDiffCard cc pc, setDiffCard pc cc⟩
    ∧ (calculate_package_changes cf cc none pco).added_formulae = 0
    ∧ (calculate_package_changes cf cc none pco).removed_formulae = 0
    ∧ (calculate_package_changes cf cc pfo none).added_casks = 0
    ∧ (calculate_package_changes cf cc pfo none).removed_casks = 0 :=
  ⟨calculate_changes_eq_setdiff_aux cf cc pf pc h1 h2 h3 h4, rfl, rfl, rfl, rfl⟩

/-- C8 witness: the change computation on the repository's own test data
`current = [git, node, python]`, `previous = [git, vim]`. -/
theorem calculate_package_changes_spec_witness :
    ([str "git", str "node", str "python"]).Nodup
    ∧ calculate_package_changes [str "git", str "node", str "python"]
        [str "docker"] (some [str "git", str "vim"]) (some [str "docker"])
      = ⟨setDiffCard [str "git", str "node", str "python"] [str "git", str "vim"],
         setDiffCard [str "git", str "vim"] [str "git", str "node", str "python"],
         setDiffCard [str "docker"] [str "docker"],
         setDiffCard [str "docker"] [str "docker"]⟩ :=
  ⟨by decide,
    (calculate_package_changes_spec [str "git", str "node", str "python"]
      [str "docker"] [str "git", str "vim"] [str "docker"] none none
      (by decide) (by decide) (by decide) (by decide)).1⟩

/-- C8 counterexample: with the duplicated current list `["a", "a"]` and an
empty previous list, the code reports two added formulae while the
name-set difference has cardinality one — duplicates do inflate the
counts. -/
theorem calculate_package_changes_spec_counterexample :
    (calculate_package_changes [str "a", str "a"] [] (some []) (some [])).added_formulae = 2
    ∧ setDiffCard [str "a", str "a"] [] = 1 := by
  decide

/-- C9 (confirmed): no key of the parsed checklist map is the empty
string — a checkbox line whose name is blank after trimming contributes no
entry, nor does any non-checkbox line. -/
theorem read_existing_settings_no_empty_key (content : List Char)
    (kv : List Char × Bool) (h : kv ∈ read_existing_settings content) :
    kv.1 ≠ ([] : List Char) :=
  read_existing_keys_ne_nil content kv h

/-- C9 witness: the only entry parsed from `"- [x] git"` has the non-empty
key `"git"`. -/
theorem read_existing_settings_no_empty_key_witness :
    (str "git", true) ∈ read_existing_settings (str "- [x] git")
    ∧ (str "git", true).1 ≠ ([] : List Char) :=
  ⟨by decide,
    read_existing_settings_no_empty_key (str "- [x] git") (str "git", true)
      (by decide)⟩

/-- C10 (confirmed): when the checklist file exists but parses to an empty
map, the upgrade command stops with the no-packages error before any
filtering or picking, even though an empty map would elsewhere mean
everything is enabled. -/
theorem upgrade_command_empty_settings_error (content : List Char)
    (outdated : List OutdatedPackage)
    (h : read_existing_settings content = []) :
    upgrade_command_model true content outdated = UpgradeOutcome.errNoPackages :=
  upgrade_empty_bails_aux content outdated h

/-- C10 witness: a checklist holding only the title, timestamp and section
headers parses to the empty map, and the upgrade command errors on it. -/
theorem upgrade_command_empty_settings_error_witness :
    read_existing_settings
        (str "# Brew Auto-Update Settings\n\nGenerated on: T\n\n## Formulae\n\n## Casks\n")
      = []
    ∧ upgrade_command_model true
        (str "# Brew Auto-Update Settings\n\nGenerated on: T\n\n## Formulae\n\n## Casks\n")
        [] = UpgradeOutcome.errNoPackages :=
  ⟨by decide,
    upgrade_command_empty_settings_error
      (str "# Brew Auto-Update Settings\n\nGenerated on: T\n\n## Formulae\n\n## Casks\n")
      [] (by decide)⟩
